import Mathlib

/-!
# Verification of the `Attention` feature-pyramid neck

Shallow embedding of `mmdet/models/necks/attention.py` (the pyramid fusion
orchestrator `Attention`) and
`mmdet/models/necks/attention_module/attention_augmented.py`
(`AugmentedConv` and `AugmentedAttention`).

Tensors are modelled at two granularities, matching what each property needs:

* **shape level** — a feature map is its `(channels, height, width)` triple
  (the batch axis is uniform and elided); convolutions, interpolation and
  pooling act on these triples exactly as the framework computes output
  sizes, and fallible operations (channel mismatches, out-of-range bank
  indexing, concatenation of misaligned tensors) return `Option`;
* **value level** — for the index laws of `rel_to_abs` and for the gating
  algebra of `AugmentedAttention.forward`, tensors are (nested) lists of
  integers and the `torch` reshape/pad/slice/elementwise operations are
  translated operation by operation.
-/

/-! ## Shape-level primitives -/

/-- Shape of one feature map with the batch axis elided:
`(channels, height, width)`. -/
abbrev Shape := Nat × Nat × Nat

/-- Output extent of a strided convolution along one spatial axis:
`floor((n + 2*p - k) / s) + 1` for input extent `n`, kernel `k`, stride `s`
and padding `p`. -/
def convDim (n k s p : Nat) : Nat := (n + 2 * p - k) / s + 1

/-- Shape-level application of a `ConvModule`/`nn.Conv2d` with `cin` input
channels, `cout` output channels, square kernel `k`, stride `s` and padding
`p`: fails (as the framework does) when the input channel count does not
match the configured one. -/
def convApply (cin cout k s p : Nat) (t : Shape) : Option Shape :=
  if t.1 = cin then some (cout, convDim t.2.1 k s p, convDim t.2.2 k s p) else none

/-- `F.interpolate(t, size=hw)`: spatial size becomes `hw`, channels kept. -/
def interpolateTo (t : Shape) (hw : Nat × Nat) : Shape := (t.1, hw.1, hw.2)

/-- `F.max_pool2d(t, k, stride=s)` (no padding): channels kept, each spatial
extent becomes `floor((n - k) / s) + 1`. -/
def maxPool2dShape (k s : Nat) (t : Shape) : Shape :=
  (t.1, (t.2.1 - k) / s + 1, (t.2.2 - k) / s + 1)

/-- Elementwise addition of two feature maps is defined exactly on equal
shapes. -/
def addShapes (a b : Shape) : Option Shape := if a = b then some a else none

/-! ## `AugmentedConv.rel_to_abs` (value level)

`rel_to_abs` receives a tensor of shape `(B, Nh, L, 2L-1)` and operates on
the last two axes of every `(b, nh)` slice independently (the zero column is
appended along dim 3, the flatten groups dims 2 and 3, the flat pad extends
dim 2, and the reshape/slice restore per-slice rows), so a slice is modelled
as a list of `L` rows of length `2L-1` and the 4-D tensor as a doubly nested
list of slices. -/

/-- Split a flat list into `rows` consecutive rows of `cols` entries each —
the effect of `torch.reshape(flat, (rows, cols))` on row-major data. -/
def toRows (cols : Nat) : Nat → List Int → List (List Int)
  | 0, _ => []
  | rows + 1, l => l.take cols :: toRows cols rows (l.drop cols)

/-- One `(b, nh)` slice of `AugmentedConv.rel_to_abs`
(`attention_augmented.py` lines 122–134): append one zero column, flatten,
pad with `L - 1` zeros, reshape into `(L+1, 2L-1)`, keep the first `L` rows
from column `L-1` on. -/
def relToAbsSlice (L : Nat) (x : List (List Int)) : List (List Int) :=
  let colPadded := x.map (fun row => row ++ [0])
  let flat := colPadded.flatten
  let flatPadded := flat ++ List.replicate (L - 1) 0
  let finalRows := toRows (2 * L - 1) (L + 1) flatPadded
  (finalRows.take L).map (fun row => row.drop (L - 1))

/-- Full `rel_to_abs` on a `(B, Nh, L, 2L-1)` tensor: the transform acts on
every `(b, nh)` slice independently. -/
def relToAbs (L : Nat) (x : List (List (List (List Int)))) :
    List (List (List (List Int))) :=
  x.map (fun b => b.map (relToAbsSlice L))

example :
    relToAbsSlice 2 [[10, 11, 12], [20, 21, 22]] = [[11, 12], [20, 21]] := by
  decide

example :
    relToAbsSlice 3 [[1, 2, 3, 4, 5], [6, 7, 8, 9, 10], [11, 12, 13, 14, 15]] =
      [[3, 4, 5], [7, 8, 9], [11, 12, 13]] := by
  decide

lemma toRows_length (cols : Nat) :
    ∀ (rows : Nat) (l : List Int), (toRows cols rows l).length = rows := by
  intro rows
  induction rows with
  | zero => intro l; rfl
  | succ n ih => intro l; simp [toRows, ih]

lemma toRows_getElem? (cols : Nat) :
    ∀ (rows q : Nat) (l : List Int), q < rows →
      (toRows cols rows l)[q]? = some ((l.drop (q * cols)).take cols) := by
  intro rows
  induction rows with
  | zero => intro q l hq; omega
  | succ n ih =>
      intro q l hq
      cases q with
      | zero => simp [toRows]
      | succ q' =>
          have h1 : (toRows cols (n + 1) l)[q' + 1]? =
              (toRows cols n (l.drop cols))[q']? := by
            simp only [toRows, List.getElem?_cons_succ]
          rw [h1, ih q' (l.drop cols) (by omega), List.drop_drop]
          have h2 : cols + q' * cols = (q' + 1) * cols := by ring
          rw [h2]

lemma flatten_length_uniform {α : Type} (w : Nat) :
    ∀ (l : List (List α)), (∀ r ∈ l, r.length = w) →
      l.flatten.length = l.length * w := by
  intro l
  induction l with
  | nil => intro _; simp
  | cons a t ih =>
      intro h
      have ha : a.length = w := h a (by simp)
      have ht : ∀ r ∈ t, r.length = w := fun r hr => h r (by simp [hr])
      simp [List.flatten_cons, ha, ih ht, Nat.succ_mul, Nat.add_comm]

lemma getElem?_flatten_uniform {α : Type} (w : Nat) :
    ∀ (l : List (List α)) (q r : Nat), (∀ row ∈ l, row.length = w) →
      q < l.length → r < w →
      l.flatten[q * w + r]? = (l.getD q [])[r]? := by
  intro l
  induction l with
  | nil => intro q r _ hq _; simp at hq
  | cons a t ih =>
      intro q r h hq hr
      have ha : a.length = w := h a (by simp)
      have ht : ∀ row ∈ t, row.length = w := fun x hx => h x (by simp [hx])
      cases q with
      | zero =>
          have : r < a.length := by omega
          simp only [List.flatten_cons, Nat.zero_mul, Nat.zero_add]
          rw [List.getElem?_append_left this]
          rfl
      | succ q' =>
          have hlen : a.length ≤ (q' + 1) * w + r := by
            have : w ≤ (q' + 1) * w := Nat.le_mul_of_pos_left w (by omega)
            omega
          simp only [List.flatten_cons]
          rw [List.getElem?_append_right hlen]
          have harith : (q' + 1) * w + r - a.length = q' * w + r := by
            have : (q' + 1) * w = q' * w + w := by ring
            omega
          rw [harith, ih q' r ht (by simpa using hq) hr]
          rfl

lemma getD_map_lt {α β : Type} (f : α → β) (l : List α) (n : Nat) (d : β) (d' : α)
    (h : n < l.length) : (l.map f).getD n d = f (l.getD n d') := by
  rw [List.getD_eq_getElem _ _ (by simpa using h), List.getElem_map,
    List.getD_eq_getElem _ _ h]

lemma relToAbsSlice_rowEq (L p : Nat) (s : List (List Int)) (hp : p < L) :
    (relToAbsSlice L s)[p]? =
      some (((((s.map (fun row => row ++ [0])).flatten ++
        List.replicate (L - 1) 0).drop (p * (2 * L - 1))).take
          (2 * L - 1)).drop (L - 1)) := by
  simp only [relToAbsSlice]
  rw [List.getElem?_map, List.getElem?_take_of_lt hp,
    toRows_getElem? _ _ _ _ (by omega)]
  rfl

lemma relToAbsSlice_val (L p k : Nat) (s : List (List Int)) (hlen : s.length = L)
    (hrow : ∀ row ∈ s, row.length = 2 * L - 1) (hp : p < L) (hk : k < L) :
    ((relToAbsSlice L s).getD p []).getD k 0 =
      (s.getD p []).getD (L - 1 + k - p) 0 := by
  have hL : 1 ≤ L := by omega
  have hcpLen : ∀ row ∈ s.map (fun row => row ++ [0]), row.length = 2 * L := by
    intro row hr
    rcases List.mem_map.1 hr with ⟨r0, hr0, rfl⟩
    have := hrow r0 hr0
    simp [this]; omega
  have hflatLen : (s.map (fun row => row ++ [0])).flatten.length = L * (2 * L) := by
    rw [flatten_length_uniform (2 * L) _ hcpLen, List.length_map, hlen]
  -- the row selected by `p`
  have h1 : (relToAbsSlice L s).getD p [] =
      ((((s.map (fun row => row ++ [0])).flatten ++
        List.replicate (L - 1) 0).drop (p * (2 * L - 1))).take
          (2 * L - 1)).drop (L - 1) := by
    rw [List.getD_eq_getD_get?, List.get?_eq_getElem?, relToAbsSlice_rowEq L p s hp]
    rfl
  rw [h1, List.getD_eq_getD_get?, List.get?_eq_getElem?, List.getElem?_drop,
    List.getElem?_take_of_lt (show L - 1 + k < 2 * L - 1 by omega),
    List.getElem?_drop]
  -- arithmetic: the flat index hits the unpadded, original part of the row
  have e1 : p * (2 * L) = p * (2 * L - 1) + p := by
    have h2 : 2 * L - 1 + 1 = 2 * L := by omega
    calc p * (2 * L) = p * (2 * L - 1 + 1) := by rw [h2]
    _ = p * (2 * L - 1) + p := by ring
  have e2 : (p + 1) * (2 * L) ≤ L * (2 * L) := Nat.mul_le_mul_right _ hp
  have e3 : (p + 1) * (2 * L) = p * (2 * L) + 2 * L := by ring
  have hf_lt : p * (2 * L - 1) + (L - 1 + k) < L * (2 * L) := by omega
  rw [List.getElem?_append_left (by omega : p * (2 * L - 1) + (L - 1 + k) <
    (s.map (fun row => row ++ [0])).flatten.length)]
  have hfc : p * (2 * L - 1) + (L - 1 + k) = p * (2 * L) + (L - 1 + k - p) := by
    omega
  rw [hfc, getElem?_flatten_uniform (2 * L) _ p (L - 1 + k - p) hcpLen
    (by simp [hlen]; omega) (by omega)]
  -- the selected row of the column-padded matrix
  have hsp : (s.map (fun row => row ++ [0])).getD p [] = (s.getD p []) ++ [0] :=
    getD_map_lt _ s p [] [] (by omega)
  rw [hsp]
  have hrl : (s.getD p []).length = 2 * L - 1 := by
    apply hrow
    rw [List.getD_eq_getElem _ _ (by omega)]
    exact List.getElem_mem _
  rw [List.getElem?_append_left (by omega : L - 1 + k - p < (s.getD p []).length)]
  simp [List.getD_eq_getD_get?, List.get?_eq_getElem?]

lemma relToAbsSlice_shape (L : Nat) (s : List (List Int)) (hlen : s.length = L)
    (hrow : ∀ row ∈ s, row.length = 2 * L - 1) (hL : 1 ≤ L) :
    (relToAbsSlice L s).length = L ∧
      ∀ row ∈ relToAbsSlice L s, row.length = L := by
  have hlenR : (relToAbsSlice L s).length = L := by
    simp only [relToAbsSlice, List.length_map, List.length_take, toRows_length]
    omega
  refine ⟨hlenR, ?_⟩
  intro row hr
  obtain ⟨q, hq⟩ := List.mem_iff_getElem?.1 hr
  have hqlt : q < L := by
    obtain ⟨h, -⟩ := List.getElem?_eq_some_iff.1 hq
    omega
  have hcpLen : ∀ r ∈ s.map (fun row => row ++ [0]), r.length = 2 * L := by
    intro r hrm
    rcases List.mem_map.1 hrm with ⟨r0, hr0, rfl⟩
    have := hrow r0 hr0
    simp [this]; omega
  have hflatLen : (s.map (fun row => row ++ [0])).flatten.length = L * (2 * L) := by
    rw [flatten_length_uniform (2 * L) _ hcpLen, List.length_map, hlen]
  rw [relToAbsSlice_rowEq L q s hqlt] at hq
  have hrowEq := Option.some.inj hq
  have hq1 : (q + 1) * (2 * L - 1) ≤ L * (2 * L - 1) :=
    Nat.mul_le_mul_right _ hqlt
  have e : (q + 1) * (2 * L - 1) = q * (2 * L - 1) + (2 * L - 1) := by ring
  have hLsq : L * (2 * L - 1) ≤ L * (2 * L) := Nat.mul_le_mul_left _ (by omega)
  rw [← hrowEq]
  simp only [List.length_drop, List.length_take, List.length_append,
    hflatLen, List.length_replicate]
  omega

/-- **C3.** For every input of shape `(B, Nh, L, 2L-1)` of raw relative
logits, `rel_to_abs` (append one zero column, flatten, pad with `L-1` zeros,
reshape into `(L+1, 2L-1)`, take the first `L` rows from column `L-1` on)
returns a `(B, Nh, L, L)` matrix whose row `p` holds, in increasing
key-position order `k = 0, …, L-1`, the input entries at relative-offset
column `(L-1) + (k - p)`, i.e. the offsets `-p … L-1-p`. -/
theorem rel_to_abs_index_law (L b nh p k : Nat)
    (x : List (List (List (List Int))))
    (hx : ∀ bl ∈ x, ∀ s ∈ bl, s.length = L ∧ ∀ row ∈ s, row.length = 2 * L - 1)
    (hb : b < x.length) (hnh : nh < (x.getD b []).length)
    (hp : p < L) (hk : k < L) :
    (((relToAbs L x).getD b []).getD nh []).length = L ∧
    (∀ row ∈ ((relToAbs L x).getD b []).getD nh [], row.length = L) ∧
    ((((relToAbs L x).getD b []).getD nh []).getD p []).getD k 0 =
      (((x.getD b []).getD nh []).getD p []).getD (L - 1 + k - p) 0 := by
  have hmem_b : x.getD b [] ∈ x := by
    rw [List.getD_eq_getElem _ _ hb]
    exact List.getElem_mem _
  have hmem_s : (x.getD b []).getD nh [] ∈ x.getD b [] := by
    rw [List.getD_eq_getElem _ _ hnh]
    exact List.getElem_mem _
  obtain ⟨hslen, hsrow⟩ := hx (x.getD b []) hmem_b ((x.getD b []).getD nh []) hmem_s
  have hslice : ((relToAbs L x).getD b []).getD nh [] =
      relToAbsSlice L ((x.getD b []).getD nh []) := by
    have e1 : (relToAbs L x).getD b [] =
        (x.getD b []).map (relToAbsSlice L) := by
      have h := getD_map_lt
        (fun bl : List (List (List Int)) => bl.map (relToAbsSlice L)) x b [] [] hb
      simpa [relToAbs] using h
    rw [e1]
    exact getD_map_lt (relToAbsSlice L) (x.getD b []) nh [] [] hnh
  obtain ⟨hL1, hL2⟩ := relToAbsSlice_shape L ((x.getD b []).getD nh []) hslen
    hsrow (by omega)
  refine ⟨by rw [hslice]; exact hL1, by rw [hslice]; exact hL2, ?_⟩
  rw [hslice]
  exact relToAbsSlice_val L p k ((x.getD b []).getD nh []) hslen hsrow hp hk

/-- Witness for `rel_to_abs_index_law` at `L = 2`, `B = Nh = 1`,
`p = 1`, `k = 0`. -/
theorem rel_to_abs_index_law_witness :
    (((relToAbs 2 [[[[10, 11, 12], [20, 21, 22]]]]).getD 0 []).getD 0 []).length = 2 ∧
    (∀ row ∈ ((relToAbs 2 [[[[10, 11, 12], [20, 21, 22]]]]).getD 0 []).getD 0 [],
      row.length = 2) ∧
    ((((relToAbs 2 [[[[10, 11, 12], [20, 21, 22]]]]).getD 0 []).getD 0 []).getD 1 []).getD 0 0 =
      (((([[[[10, 11, 12], [20, 21, 22]]]] :
        List (List (List (List Int)))).getD 0 []).getD 0 []).getD 1 []).getD
          (2 - 1 + 0 - 1) 0 :=
  rel_to_abs_index_law 2 0 0 1 0 [[[[10, 11, 12], [20, 21, 22]]]]
    (by decide) (by decide) (by decide) (by decide) (by decide)

/-! ## `AugmentedConv` head split / merge (C9)

`torch.reshape` on a contiguous tensor keeps the underlying row-major data
and only changes the shape, and it is defined exactly when the number of
elements (the product of the shape) is preserved. -/

/-- A tensor as its shape together with its flat row-major data. -/
structure FlatTensor where
  shape : List Nat
  data : List Int
deriving DecidableEq

/-- `torch.reshape(t, s)`: same data, new shape; defined exactly when the
element count is preserved. -/
def FlatTensor.reshape (t : FlatTensor) (s : List Nat) : Option FlatTensor :=
  if t.shape.prod = s.prod then some ⟨s, t.data⟩ else none

/-- `AugmentedConv.split_heads_2d` (`attention_augmented.py` lines 86–90):
reshape `(batch, channels, height, width)` into
`(batch, Nh, channels // Nh, height, width)`. -/
def split_heads_2d (t : FlatTensor) (Nh : Nat) : Option FlatTensor :=
  match t.shape with
  | [batch, channels, height, width] =>
      t.reshape [batch, Nh, channels / Nh, height, width]
  | _ => none

/-- `AugmentedConv.combine_heads_2d` (`attention_augmented.py` lines 92–95):
reshape `(batch, Nh, dv, H, W)` into `(batch, Nh * dv, H, W)`. -/
def combine_heads_2d (t : FlatTensor) : Option FlatTensor :=
  match t.shape with
  | [batch, nh, dv, h, w] => t.reshape [batch, nh * dv, h, w]
  | _ => none

/-- **C9.** On a `(batch, C, H, W)` tensor with `Nh ∣ C`, splitting into
`Nh` heads and recombining reproduces the original tensor exactly. -/
theorem split_combine_roundtrip (t : FlatTensor) (Nh b c h w : Nat)
    (hshape : t.shape = [b, c, h, w]) (hdvd : Nh ∣ c) :
    (split_heads_2d t Nh).bind combine_heads_2d = some t := by
  obtain ⟨sh, d⟩ := t
  simp only at hshape
  subst hshape
  have hc : Nh * (c / Nh) = c := Nat.mul_div_cancel' hdvd
  have h1 : ([b, Nh, c / Nh, h, w] : List Nat).prod = b * (Nh * (c / Nh)) * (h * w) := by
    simp [List.prod_cons]; ring
  have h2 : ([b, c, h, w] : List Nat).prod = b * c * (h * w) := by
    simp [List.prod_cons]; ring
  have h3 : ([b, Nh * (c / Nh), h, w] : List Nat).prod =
      b * (Nh * (c / Nh)) * (h * w) := by
    simp [List.prod_cons]; ring
  have hsplit : split_heads_2d ⟨[b, c, h, w], d⟩ Nh =
      some ⟨[b, Nh, c / Nh, h, w], d⟩ := by
    simp only [split_heads_2d, FlatTensor.reshape]
    rw [if_pos (by rw [h1, h2, hc])]
  rw [hsplit, Option.some_bind]
  simp only [combine_heads_2d, FlatTensor.reshape]
  rw [if_pos (by rw [h1, h3]), hc]

/-- Witness for `split_combine_roundtrip`: a `(1, 4, 2, 2)` tensor with
`Nh = 2`. -/
theorem split_combine_roundtrip_witness :
    (split_heads_2d ⟨[1, 4, 2, 2], List.range' 1 16 |>.map Int.ofNat⟩ 2).bind
      combine_heads_2d =
    some ⟨[1, 4, 2, 2], List.range' 1 16 |>.map Int.ofNat⟩ :=
  split_combine_roundtrip _ 2 1 4 2 2 rfl (by decide)

/-! ## `AugmentedConv` construction checks (C8) -/

/-- The assert block of `AugmentedConv.__init__`
(`attention_augmented.py` lines 20–23), over the raw Python integer
arguments: `Nh != 0`, `dk % Nh == 0`, `dv % Nh == 0`,
`stride in [1, 2, 3, 4]`.  Python's `%` and Lean's `Int.emod` can differ in
sign for a negative divisor, but they are zero for exactly the same pairs,
which is all the asserts test. -/
def augConvChecks (Nh dk dv stride : Int) : Bool :=
  Nh != 0 && dk % Nh == 0 && dv % Nh == 0 &&
    (stride == 1 || stride == 2 || stride == 3 || stride == 4)

/-- The configuration-validity condition as the specification states it:
`Nh ≥ 1`, `dk % Nh == 0`, `dv % Nh == 0`, `stride ∈ {1, 2, 3, 4}`. -/
def specAugConvOk (Nh dk dv stride : Int) : Prop :=
  1 ≤ Nh ∧ dk % Nh = 0 ∧ dv % Nh = 0 ∧
    (stride = 1 ∨ stride = 2 ∨ stride = 3 ∨ stride = 4)

/-- **C8** (failing input): at `Nh = -1`, `dk = 40`, `dv = 4`, `stride = 1`
every assert of `AugmentedConv.__init__` passes (construction succeeds),
although the claimed condition `Nh ≥ 1` is violated — the code checks only
`Nh != 0`, while its own assert message reads "Nh >= 1". -/
theorem augConvChecks_negative_Nh :
    augConvChecks (-1) 40 4 1 = true ∧ ¬ specAugConvOk (-1) 40 4 1 := by
  constructor
  · decide
  · intro h
    exact absurd h.1 (by decide)

/-! ## `AugmentedAttention` bank construction and `AugmentedConv` forward
trace (C10) -/

/-- Constructor parameters of `AugmentedConv`
(`attention_augmented.py` line 7) with their declared defaults. -/
structure AugConvCfg where
  in_channels : Nat
  out_channels : Nat
  kernel_size : Nat := 3
  dk : Nat := 40
  dv : Nat := 4
  Nh : Nat := 4
  shape : Nat := 8
  relative : Bool := false
  stride : Nat := 4
deriving DecidableEq

/-- `self.padding = (self.kernel_size - 1) // 2` (line 18). -/
def AugConvCfg.padding (c : AugConvCfg) : Nat := (c.kernel_size - 1) / 2

/-- The constructor creates the learned relative-position tables
`key_rel_w` / `key_rel_h` exactly when `relative` is set (lines 31–33). -/
def AugConvCfg.hasRelTables (c : AugConvCfg) : Bool := c.relative

/-- The `AugmentedConv` bank built by `AugmentedAttention.__init__`
(lines 144–148): `map_repeated` rows of `levels` instances, each constructed
as `AugmentedConv(in_channels, out_channels)` — every other hyperparameter
left at its default. -/
def augBank (levels in_ch out_ch map_repeated : Nat) : List (List AugConvCfg) :=
  (List.range map_repeated).map (fun _ =>
    (List.range levels).map (fun _ =>
      { in_channels := in_ch, out_channels := out_ch }))

/-- Observable control/shape trace of one `AugmentedConv.forward` call. -/
structure AugFwdTrace where
  relBranch : Bool
  attnSpatial : Nat × Nat
  outChannels : Nat
  outSpatial : Nat × Nat
deriving DecidableEq

/-- Shape/control trace of `AugmentedConv.forward` (lines 35–69): `conv_out`
and `qkv_conv` both use the configured stride, so attention logits and
weights are formed at the strided reduced spatial size; the relative-logits
branch runs exactly when `relative` is set; the concatenation of the
`(out_channels - dv)`-channel plain path with the `dv`-channel attention
path is bilinearly resized back to the input's spatial size. -/
def augConvForward (c : AugConvCfg) (t : Shape) : Option AugFwdTrace := do
  let conv_out ← convApply c.in_channels (c.out_channels - c.dv)
    c.kernel_size c.stride c.padding t
  let _qkv ← convApply c.in_channels (2 * c.dk + c.dv)
    c.kernel_size c.stride c.padding t
  pure { relBranch := c.relative
         attnSpatial := (conv_out.2.1, conv_out.2.2)
         outChannels := (c.out_channels - c.dv) + c.dv
         outSpatial := (t.2.1, t.2.2) }

/-- **C10.** Every `AugmentedConv` built by the Augmented gate carries the
default configuration (`relative = False`, `stride = 4`, `kernel_size = 3`,
`dk = 40`, `dv = 4`, `Nh = 4`), hence owns no relative-position tables; on
any input its forward trace never takes the relative-logits branch, forms
the attention map at the stride-4 reduced spatial size
`floor((n + 2 - 3)/4) + 1` per axis, and resizes the result back to the
input's spatial size. -/
theorem augBank_default_cfg_law (levels in_ch out_ch mr : Nat)
    (c : AugConvCfg) (t : Shape) (tr : AugFwdTrace)
    (hc : c ∈ (augBank levels in_ch out_ch mr).flatten)
    (htr : augConvForward c t = some tr) :
    c = { in_channels := in_ch, out_channels := out_ch } ∧
    c.relative = false ∧ c.stride = 4 ∧ c.kernel_size = 3 ∧
    c.dk = 40 ∧ c.dv = 4 ∧ c.Nh = 4 ∧ c.hasRelTables = false ∧
    tr.relBranch = false ∧
    tr.attnSpatial = (convDim t.2.1 3 4 1, convDim t.2.2 3 4 1) ∧
    tr.outSpatial = (t.2.1, t.2.2) := by
  have hcd : c = { in_channels := in_ch, out_channels := out_ch } := by
    rcases List.mem_flatten.1 hc with ⟨row, hrow, hcr⟩
    rcases List.mem_map.1 hrow with ⟨r, -, rfl⟩
    rcases List.mem_map.1 hcr with ⟨j, -, rfl⟩
    rfl
  subst hcd
  refine ⟨rfl, rfl, rfl, rfl, rfl, rfl, rfl, rfl, ?_, ?_, ?_⟩ <;>
  · simp only [augConvForward, convApply, AugConvCfg.padding] at htr
    by_cases ht : t.1 = in_ch
    · simp [ht] at htr
      simp [← htr]
    · simp [ht] at htr

/-- Witness for `augBank_default_cfg_law` on a 1×1 bank and a `(8, 9, 9)`
input. -/
theorem augBank_default_cfg_law_witness :
    ({ in_channels := 8, out_channels := 4 } : AugConvCfg) =
      { in_channels := 8, out_channels := 4 } ∧
    ({ in_channels := 8, out_channels := 4 } : AugConvCfg).relative = false ∧
    ({ in_channels := 8, out_channels := 4 } : AugConvCfg).stride = 4 ∧
    ({ in_channels := 8, out_channels := 4 } : AugConvCfg).kernel_size = 3 ∧
    ({ in_channels := 8, out_channels := 4 } : AugConvCfg).dk = 40 ∧
    ({ in_channels := 8, out_channels := 4 } : AugConvCfg).dv = 4 ∧
    ({ in_channels := 8, out_channels := 4 } : AugConvCfg).Nh = 4 ∧
    ({ in_channels := 8, out_channels := 4 } : AugConvCfg).hasRelTables = false ∧
    ({ relBranch := false, attnSpatial := (3, 3), outChannels := 4,
       outSpatial := (9, 9) } : AugFwdTrace).relBranch = false ∧
    ({ relBranch := false, attnSpatial := (3, 3), outChannels := 4,
       outSpatial := (9, 9) } : AugFwdTrace).attnSpatial =
        (convDim 9 3 4 1, convDim 9 3 4 1) ∧
    ({ relBranch := false, attnSpatial := (3, 3), outChannels := 4,
       outSpatial := (9, 9) } : AugFwdTrace).outSpatial = (9, 9) :=
  augBank_default_cfg_law 1 8 4 1 _ (8, 9, 9) _ (by decide) (by decide)

/-! ## `AugmentedAttention.forward` gating algebra (C4)

Candidate tensors are single-batch `(C, H, W)` maps stored as flat row-major
integer lists; in this layout `torch.cat(x, dim=1)` is list concatenation
and the elementwise `+` / `*` of equally shaped tensors are `zipWith`.  The
`AugmentedConv` instances of the bank are abstracted as an arbitrary family
`conv r j` indexed by repetition and candidate position. -/

/-- Elementwise tensor addition. -/
def tAdd (a b : List Int) : List Int := List.zipWith (· + ·) a b

/-- Elementwise tensor multiplication. -/
def tMul (a b : List Int) : List Int := List.zipWith (· * ·) a b

/-- Python `sum(outs)` over a nonempty list of tensors (the int `0` start
value broadcasts away against the first tensor). -/
def tSum : List (List Int) → List Int
  | [] => []
  | t :: ts => ts.foldl tAdd t

/-- `AugmentedAttention.forward` (`attention_augmented.py` lines 150–162):
concatenate the candidates, apply the repetition-0 bank to get one map per
candidate position, fold repetitions `1 … map_repeated - 1` adding the new
maps elementwise (the python `zip`), gate each candidate by its accumulated
map, and sum the gated candidates. -/
def augAttnForward (conv : Nat → Nat → List Int → List Int)
    (levels map_repeated : Nat) (x : List (List Int)) : List Int :=
  let X := x.flatten
  let maps0 := (List.range levels).map (fun j => conv 0 j X)
  let maps := (List.range' 1 (map_repeated - 1)).foldl
    (fun maps r =>
      List.zipWith tAdd maps ((List.range levels).map (fun j => conv r j X)))
    maps0
  tSum ((List.range levels).map (fun lvl =>
    tMul (x.getD lvl []) (maps.getD lvl [])))

lemma zipWith_map_same {α β γ : Type} (g : β → β → γ) (f f' : α → β)
    (l : List α) :
    List.zipWith g (l.map f) (l.map f') = l.map (fun a => g (f a) (f' a)) := by
  induction l with
  | nil => rfl
  | cons a t ih => simp [ih]

lemma tSum_concat_single (l : List (List Int)) (a : List Int) (h : l ≠ []) :
    tSum (l ++ [a]) = tAdd (tSum l) a := by
  cases l with
  | nil => exact absurd rfl h
  | cons b t => simp [tSum, List.foldl_append]

lemma augAttn_fold_maps (conv : Nat → Nat → List Int → List Int)
    (levels : Nat) (X : List Int) :
    ∀ m : Nat,
      (List.range' 1 m).foldl
        (fun maps r =>
          List.zipWith tAdd maps ((List.range levels).map (fun j => conv r j X)))
        ((List.range levels).map (fun j => conv 0 j X)) =
      (List.range levels).map (fun j =>
        tSum ((List.range (m + 1)).map (fun r => conv r j X))) := by
  intro m
  induction m with
  | zero =>
      simp [List.range_succ, tSum]
  | succ n ih =>
      rw [List.range'_1_concat, List.foldl_append]
      simp only [List.foldl_cons, List.foldl_nil, ih]
      rw [zipWith_map_same]
      apply List.map_congr_left
      intro j _
      have hne : (List.range (n + 1)).map (fun r => conv r j X) ≠ [] := by
        simp
      rw [List.range_succ (n + 1), List.map_append, List.map_cons, List.map_nil,
        tSum_concat_single _ _ hne, Nat.add_comm 1 n]

/-- **C4.** For every candidate list, `AugmentedAttention.forward` equals
the gated sum the specification describes: each candidate is multiplied
elementwise by the elementwise sum over all `map_repeated` repetitions of
its position's `AugmentedConv` map of the channel-concatenated input, and
the `levels` gated candidates are summed elementwise. -/
theorem augAttnForward_gating_law (conv : Nat → Nat → List Int → List Int)
    (levels mr : Nat) (x : List (List Int)) (hm : 1 ≤ mr) :
    augAttnForward conv levels mr x =
      tSum ((List.range levels).map (fun lvl =>
        tMul (x.getD lvl [])
          (tSum ((List.range mr).map (fun r => conv r lvl x.flatten))))) := by
  simp only [augAttnForward]
  rw [augAttn_fold_maps conv levels x.flatten (mr - 1)]
  have hmr : mr - 1 + 1 = mr := by omega
  rw [hmr]
  congr 1
  apply List.map_congr_left
  intro lvl hlvl
  have hlt : lvl < levels := List.mem_range.1 hlvl
  rw [getD_map_lt (fun j => tSum ((List.range mr).map (fun r => conv r j x.flatten)))
    (List.range levels) lvl [] 0 (by simpa using hlt)]
  rw [List.getD_eq_getElem (List.range levels) 0 (by simpa using hlt),
    List.getElem_range]

/-- Witness for `augAttnForward_gating_law`: two levels, two repetitions,
a concrete conv family and concrete candidates. -/
theorem augAttnForward_gating_law_witness :
    augAttnForward
      (fun r j X => X.map (fun v => v * (Int.ofNat r + 1) + Int.ofNat j)) 2 2
      [[1, 2], [3, 4]] =
    tSum ((List.range 2).map (fun lvl =>
      tMul (([[1, 2], [3, 4]] : List (List Int)).getD lvl [])
        (tSum ((List.range 2).map (fun r =>
          (fun r j X => X.map (fun v => v * (Int.ofNat r + 1) + Int.ofNat j))
            r lvl (([[1, 2], [3, 4]] : List (List Int)).flatten)))))) :=
  augAttnForward_gating_law
    (fun r j X => X.map (fun v => v * (Int.ofNat r + 1) + Int.ofNat j)) 2 2
    [[1, 2], [3, 4]] (by decide)

/-! ## The pyramid fusion orchestrator `Attention` (shape level)

`attention.py` lines 72–283 (construction) and 292–408 (forward).  The
attention gates are pluggable collaborators (five variants, of which only
the Augmented one is part of this core), so the forward model is
parameterized by a gate function `gate r i candidates` returning the fused
map for level `i` at repetition bank `r` — or `none` where the real gate
would raise.  The default `upsample_cfg` carries no `scale_factor`, so
interpolation is modelled in its target-size form. -/

/-- Sequential fallible map: the effect of a Python list comprehension whose
body may raise — `none` as soon as one element fails. -/
def seqMapM {A B : Type} (f : A -> Option B) : List A -> Option (List B)
  | [] => some []
  | a :: t => (f a).bind (fun b => (seqMapM f t).map (fun t2 => b :: t2))

/-- Sequential fallible fold: the effect of a Python loop whose body may
raise, threading the loop state. -/
def seqFoldM {A B : Type} (f : B -> A -> Option B) : B -> List A -> Option B
  | b, [] => some b
  | b, a :: t => (f b a).bind (fun b2 => seqFoldM f b2 t)

/-- The extra-level source policy `add_extra_convs`
(off / `'on_input'` / `'on_lateral'` / `'on_output'`). -/
inductive ExtraConvsPolicy
  | off
  | onInput
  | onLateral
  | onOutput
deriving DecidableEq

/-- Constructor parameters of `Attention` (`attention.py` lines 72–102)
that the forward algorithm reads, with their declared defaults.
`add_fpn` is a list that may contain `'before'` and/or `'after'`; it is kept
as the two membership tests the forward performs. -/
structure AttnNeckCfg where
  in_channels : List Nat
  out_channels : Nat
  num_outs : Nat
  start_level : Nat := 0
  end_level : Int := -1
  add_extra_convs : ExtraConvsPolicy := .off
  relu_before_extra_convs : Bool := false
  repeated_layer : Nat := 1
  residual : Bool := false
  add_fpn_before : Bool := false
  add_fpn_after : Bool := false
  down_sharing : Bool := false
  attention_sharing : Bool := false
  out_sharing : Bool := false
deriving DecidableEq

/-- `self.num_ins = len(in_channels)` (line 109). -/
def AttnNeckCfg.numIns (cfg : AttnNeckCfg) : Nat := cfg.in_channels.length

/-- `self.backbone_end_level` (lines 122–127): `num_ins` when
`end_level == -1`, else `end_level` itself.  (`Int.toNat` truncates a
negative explicit `end_level` to `0`; the level window
`range(start_level, backbone_end_level)` is empty in both readings.) -/
def AttnNeckCfg.backboneEndLevel (cfg : AttnNeckCfg) : Nat :=
  if cfg.end_level = -1 then cfg.numIns else cfg.end_level.toNat

/-- Size of the level window `range(start_level, backbone_end_level)`. -/
def AttnNeckCfg.windowSize (cfg : AttnNeckCfg) : Nat :=
  cfg.backboneEndLevel - cfg.start_level

/-- The two geometry assertions of `Attention.__init__` (lines 122–129),
in Python integer arithmetic: `end_level == -1` requires
`num_outs >= num_ins - start_level`; an explicit `end_level` requires
`end_level <= len(in_channels)` and `num_outs == end_level - start_level`. -/
def AttnNeckCfg.geomChecks (cfg : AttnNeckCfg) : Bool :=
  if cfg.end_level = -1 then
    decide ((cfg.numIns : Int) - (cfg.start_level : Int) ≤ (cfg.num_outs : Int))
  else
    decide (cfg.end_level ≤ (cfg.numIns : Int)) &&
      decide ((cfg.num_outs : Int) = cfg.end_level - (cfg.start_level : Int))

/-- The pyramid-geometry consistency condition in the specification's
words. -/
def specGeomConsistent (cfg : AttnNeckCfg) : Prop :=
  (cfg.end_level = -1 →
    (cfg.numIns : Int) - (cfg.start_level : Int) ≤ (cfg.num_outs : Int)) ∧
  (cfg.end_level ≠ -1 →
    cfg.end_level ≤ (cfg.numIns : Int) ∧
      (cfg.num_outs : Int) = cfg.end_level - (cfg.start_level : Int))

/-- Number of refinement convolutions in bank `b` of `repeated_convs`, per
the construction loop (lines 137–204): a conv is appended for every window
level when `r != repeated_layer - 1 and (not out_sharing or r == 0)`; with
`out_sharing` a single bank exists (created at `r == 0`) and therefore holds
`windowSize` convs exactly when `repeated_layer >= 2`, and without sharing
bank `b` holds `windowSize` convs exactly when `b` is not the last
repetition. -/
def AttnNeckCfg.repeatedBankSize (cfg : AttnNeckCfg) (b : Nat) : Nat :=
  if cfg.out_sharing then
    if 2 ≤ cfg.repeated_layer then cfg.windowSize else 0
  else
    if b + 1 < cfg.repeated_layer then cfg.windowSize else 0

/-- The `(i, j)` downsampling chain of `i - j` stride-2 3×3
`out_channels → out_channels` convolutions (lines 205–215), applied in
sequence. -/
def downChain (oc : Nat) : Nat → Shape → Option Shape
  | 0, t => some t
  | n + 1, t => (convApply oc oc 3 2 1 t).bind (downChain oc n)

/-- Candidate construction for level `i` in one repetition of the fusion
loop (lines 327–343): the stride-2 chains applied to every level `j < i`,
then `laterals[i]` unchanged, then every level `j > i` interpolated to
`i`'s spatial size. -/
def buildCandidates (cfg : AttnNeckCfg) (laterals : List Shape) (i : Nat) :
    Option (List Shape) := do
  let li ← laterals[i]?
  let downs ← seqMapM
    (fun jt : Nat × Shape => downChain cfg.out_channels (i - jt.1) jt.2)
    (laterals.take i).enum
  let ups := (laterals.drop (i + 1)).map
    (fun t => interpolateTo t (li.2.1, li.2.2))
  pure (downs ++ [li] ++ ups)

/-- The optional classical top-down merge (lines 309–321 and 355–367): from
the coarsest level downwards, add the coarser (already updated) lateral,
interpolated to the finer lateral's spatial size, into the finer lateral. -/
def topDownMerge : List Shape → Option (List Shape)
  | [] => some []
  | t :: rest => do
      let rest' ← topDownMerge rest
      match rest' with
      | [] => pure [t]
      | u :: _ => do
          let t' ← addShapes t (interpolateTo u (t.2.1, t.2.2))
          pure (t' :: rest')

/-- One repetition `l` of the fusion loop (lines 325–353): build every
level's candidate set, apply the gate (bank `0` when attention sharing is
on, bank `l` otherwise), optionally add the residual, and — except after
the final repetition — push every fused map through its refinement conv
from bank `out_l` (bank `0` when output-conv sharing is on), failing where
the bank holds no conv at that index. -/
def fusionStep (cfg : AttnNeckCfg)
    (gate : Nat → Nat → List Shape → Option Shape)
    (l : Nat) (laterals : List Shape) : Option (List Shape) := do
  let temps ← seqMapM (fun i => do
    let li ← laterals[i]?
    let samples ← buildCandidates cfg laterals i
    let fused ← gate (if cfg.attention_sharing then 0 else l) i samples
    if cfg.residual then addShapes fused li else pure fused)
    (List.range laterals.length)
  if l ≠ cfg.repeated_layer - 1 then
    seqMapM (fun i => do
      let t ← temps[i]?
      if i < cfg.repeatedBankSize (if cfg.out_sharing then 0 else l) then
        convApply cfg.out_channels cfg.out_channels 3 1 1 t
      else none)
      (List.range laterals.length)
  else
    pure temps

/-- Output projection (lines 377–384): with `out_sharing` the repetition-0
refinement bank is indexed (failing where it holds no conv), otherwise the
per-level `fpn_convs` 3×3 projections are applied. -/
def outputConvs (cfg : AttnNeckCfg) (laterals : List Shape) :
    Option (List Shape) :=
  seqMapM (fun i => do
    let t ← laterals[i]?
    if cfg.out_sharing then
      if i < cfg.repeatedBankSize 0 then
        convApply cfg.out_channels cfg.out_channels 3 1 1 t
      else none
    else
      convApply cfg.out_channels cfg.out_channels 3 1 1 t)
    (List.range laterals.length)

/-- The parameter-free extra-level loop (lines 389–391): append
`F.max_pool2d(outs[-1], 1, stride=2)` `k` times. -/
def appendPools (k : Nat) (outs : List Shape) : Option (List Shape) :=
  match k with
  | 0 => some outs
  | k + 1 => do
      let last ← outs.getLast?
      appendPools k (outs ++ [maxPool2dShape 1 2 last])

/-- The chained extra convolutions after the first one (lines 403–407):
each sources from the previous output (`F.relu` leaves the shape
unchanged). -/
def moreExtraConvs (oc : Nat) : Nat → List Shape → Option (List Shape)
  | 0, outs => some outs
  | k + 1, outs => do
      let last ← outs.getLast?
      let t ← convApply oc oc 3 2 1 last
      moreExtraConvs oc k (outs ++ [t])

/-- Part 2 of the forward output assembly (lines 386–407): when `num_outs`
exceeds the produced outputs, either max-pool the last output repeatedly
(no extra-convs policy) or run the extra 3×3 stride-2 convolutions, the
first one sourced per policy from the backbone input / last lateral / last
output. -/
def extendOuts (cfg : AttnNeckCfg) (inputs laterals outs : List Shape) :
    Option (List Shape) :=
  if cfg.num_outs ≤ outs.length then some outs
  else
    match cfg.add_extra_convs with
    | .off => appendPools (cfg.num_outs - outs.length) outs
    | pol => do
        let src ← match pol with
          | .onInput => do
              let t ← inputs[cfg.backboneEndLevel - 1]?
              let cin ← cfg.in_channels[cfg.backboneEndLevel - 1]?
              convApply cin cfg.out_channels 3 2 1 t
          | .onLateral => do
              let t ← laterals.getLast?
              convApply cfg.out_channels cfg.out_channels 3 2 1 t
          | _ => do
              let t ← outs.getLast?
              convApply cfg.out_channels cfg.out_channels 3 2 1 t
        moreExtraConvs cfg.out_channels (cfg.num_outs - outs.length - 1)
          (outs ++ [src])

/-- `Attention.forward` (lines 292–408) at shape level: the input-length
assert, the lateral 1×1 projections over the window, the optional pre/post
top-down merges, `repeated_layer` fusion repetitions, output projection and
extra-level assembly. -/
def attnForward (cfg : AttnNeckCfg)
    (gate : Nat → Nat → List Shape → Option Shape)
    (inputs : List Shape) : Option (List Shape) := do
  guard (inputs.length = cfg.in_channels.length)
  let laterals ← seqMapM (fun i => do
    let t ← inputs[i + cfg.start_level]?
    let cin ← cfg.in_channels[i + cfg.start_level]?
    convApply cin cfg.out_channels 1 1 0 t)
    (List.range cfg.windowSize)
  let laterals ← if cfg.add_fpn_before then topDownMerge laterals
    else pure laterals
  let laterals ← seqFoldM
    (fun lats l => fusionStep cfg gate l lats) laterals
    (List.range cfg.repeated_layer)
  let laterals ← if cfg.add_fpn_after then topDownMerge laterals
    else pure laterals
  let outs ← outputConvs cfg laterals
  extendOuts cfg inputs laterals outs

/-- Shape behavior of `AugmentedAttention.forward` (lines 150–162) for one
output level: `torch.cat(x, dim=1)` requires a nonempty candidate list of
equal spatial sizes and sums the channels; every `AugmentedConv` of the
bank requires the concatenated channel count to match its configured
`in_channels` and yields an `out_channels`-channel map at the input's
spatial size (`augConvForward`); gating multiplies each of the first
`levels` candidates elementwise by its map and sums them. -/
def augGateShape (levels cin cout mr : Nat) (x : List Shape) :
    Option Shape := do
  guard (1 ≤ mr)
  let t ← x.head?
  guard (∀ u ∈ x, u.2.1 = t.2.1 ∧ u.2.2 = t.2.2)
  guard ((x.map (fun u => u.1)).sum = cin)
  guard (levels ≤ x.length)
  guard (∀ u ∈ x, u.1 = cout)
  pure (cout, t.2.1, t.2.2)

/-- The gate bank as `Attention.__init__` builds it for
`attention_type='augmented'` (lines 179–185): every gate is an
`AugmentedAttention` with `levels = num_ins - start_level` and
`in_channels = out_channels * (num_ins - start_level)`. -/
def attnAugGate (cfg : AttnNeckCfg) (map_repeated : Nat) :
    Nat → Nat → List Shape → Option Shape :=
  fun _ _ cands =>
    augGateShape (cfg.numIns - cfg.start_level)
      (cfg.out_channels * (cfg.numIns - cfg.start_level))
      cfg.out_channels map_repeated cands

/-- Modelled from the spec: the `AttentionGate` boundary contract (§6) —
`fuse` consumes the ordered candidate list for one target level and returns
a single tensor with the candidates' channel count and the target level's
spatial size.  The four gate variants other than Augmented
(`FusionAttention`, `ContextBlock`, `ContextWeightBlcok`, `SelfAttention`)
are external collaborators absent from this core's source, so end-to-end
scenarios use this contract witness, which returns the unchanged lateral
candidate `i` (whose shape is exactly the target level's). -/
def specGate : Nat → Nat → List Shape → Option Shape :=
  fun _ i cands => cands[i]?

example :
    attnForward { in_channels := [2, 3, 5, 7], out_channels := 11, num_outs := 4 }
      specGate [(2, 340, 340), (3, 170, 170), (5, 84, 84), (7, 43, 43)] =
    some [(11, 340, 340), (11, 170, 170), (11, 84, 84), (11, 43, 43)] := by
  decide

example :
    attnForward { in_channels := [2, 3, 5, 7], out_channels := 11, num_outs := 6 }
      specGate [(2, 340, 340), (3, 170, 170), (5, 84, 84), (7, 43, 43)] =
    some [(11, 340, 340), (11, 170, 170), (11, 84, 84), (11, 43, 43),
      (11, 22, 22), (11, 11, 11)] := by
  decide

/-! ## Support lemmas for the orchestrator proofs -/

lemma seqMapM_some {A B : Type} (f : A → Option B) (g : A → B) :
    ∀ l : List A, (∀ a ∈ l, f a = some (g a)) →
      seqMapM f l = some (l.map g) := by
  intro l
  induction l with
  | nil => intro _; rfl
  | cons a t ih =>
      intro h
      simp [seqMapM, h a (by simp), ih (fun x hx => h x (by simp [hx]))]

lemma mapM_range_some {B : Type} (f : Nat → Option B) (g : Nat → B)
    (n : Nat) (h : ∀ j, j < n → f j = some (g j)) :
    seqMapM f (List.range n) = some ((List.range n).map g) :=
  seqMapM_some f g (List.range n) (fun a ha => h a (List.mem_range.1 ha))

lemma map_range_getD {β : Type} (l : List β) (d : β) :
    (List.range l.length).map (fun j => l.getD j d) = l := by
  apply List.ext_getElem
  · simp
  · intro i h1 h2
    simp only [List.getElem_map, List.getElem_range]
    rw [List.getD_eq_getElem _ _ h2]

lemma seqFoldM_fix {A B : Type} (f : B → A → Option B) (a : B) :
    ∀ l : List A, (∀ x ∈ l, f a x = some a) →
      seqFoldM f a l = some a := by
  intro l
  induction l with
  | nil => intro _; rfl
  | cons x t ih =>
      intro h
      simp [seqFoldM, h x (by simp), ih (fun y hy => h y (by simp [hy]))]

lemma seqMapM_spec {A B : Type} (f : A → Option B) (l : List A)
    (h : ∀ a ∈ l, (f a).isSome) :
    ∃ l2, seqMapM f l = some l2 ∧ l2.length = l.length ∧
      ∀ j : Nat, l2[j]? = (l[j]?).bind f := by
  induction l with
  | nil => exact ⟨[], rfl, rfl, by intro j; simp⟩
  | cons a t ih =>
      obtain ⟨b, hb⟩ := Option.isSome_iff_exists.1 (h a (by simp))
      obtain ⟨t2, ht2, hlen, hidx⟩ := ih (fun x hx => h x (by simp [hx]))
      refine ⟨b :: t2, by simp [seqMapM, hb, ht2], by simp [hlen], ?_⟩
      intro j
      cases j with
      | zero => simp [hb]
      | succ j2 => simpa using hidx j2

lemma downChain_some (oc : Nat) :
    ∀ (n : Nat) (t : Shape), t.1 = oc →
      ∃ u, downChain oc n t = some u ∧ u.1 = oc := by
  intro n
  induction n with
  | zero => intro t ht; exact ⟨t, rfl, ht⟩
  | succ m ih =>
      intro t ht
      obtain ⟨u, hu, hoc⟩ :=
        ih (oc, convDim t.2.1 3 2 1, convDim t.2.2 3 2 1) rfl
      refine ⟨u, ?_, hoc⟩
      simp [downChain, convApply, ht, hu]

/-- A 3×3, stride-1, padding-1 `out_channels → out_channels` convolution is
shape-preserving on maps with matching channels and positive spatial
extents. -/
lemma convApply_3x3_id (oc : Nat) (t : Shape) (ht : t.1 = oc)
    (hh : 1 ≤ t.2.1) (hw : 1 ≤ t.2.2) :
    convApply oc oc 3 1 1 t = some t := by
  obtain ⟨c, h, w⟩ := t
  simp only at ht hh hw
  subst ht
  simp only [convApply, if_pos rfl, convDim]
  have e1 : h + 2 * 1 - 3 = h - 1 := by omega
  have e2 : w + 2 * 1 - 3 = w - 1 := by omega
  rw [e1, e2, Nat.div_one, Nat.div_one]
  have e3 : h - 1 + 1 = h := by omega
  have e4 : w - 1 + 1 = w := by omega
  rw [e3, e4]
  simp

/-- A 1×1, stride-1, padding-0 lateral projection maps `(c, h, w)` with
`h, w ≥ 1` to `(out_channels, h, w)`. -/
lemma convApply_1x1 (cin cout : Nat) (t : Shape) (ht : t.1 = cin)
    (hh : 1 ≤ t.2.1) (hw : 1 ≤ t.2.2) :
    convApply cin cout 1 1 0 t = some (cout, t.2.1, t.2.2) := by
  obtain ⟨c, h, w⟩ := t
  simp only at ht hh hw
  subst ht
  simp only [convApply, if_pos rfl, convDim]
  have e1 : (h + 2 * 0 - 1) / 1 + 1 = h := by omega
  have e2 : (w + 2 * 0 - 1) / 1 + 1 = w := by omega
  rw [e1, e2]
  simp

/-! ## C5 — construction geometry checks -/

/-- **C5.** The geometry assertions of `Attention.__init__` pass exactly
when the pyramid geometry is consistent in the specification's sense:
`end_level == -1` requires `num_outs >= num_ins - start_level`; an explicit
`end_level` requires `end_level <= len(in_channels)` and
`num_outs == end_level - start_level`; nothing else is checked. -/
theorem geomChecks_iff_consistent (cfg : AttnNeckCfg) :
    cfg.geomChecks = true ↔ specGeomConsistent cfg := by
  unfold AttnNeckCfg.geomChecks specGeomConsistent
  by_cases h : cfg.end_level = -1 <;> simp [h]

/-! ## C2 — the candidate set of the fusion loop -/

/-- **C2** (amended).  For level `i` of a lateral list with out_channels
maps, the candidate set is built as claimed — stride-2 chains of the levels
below `i`, `laterals[i]` itself, interpolations of the levels above `i` —
but its size is the window size `backbone_end_level - start_level`
(= `len(laterals)`), which equals `num_ins - start_level` exactly in the
default `end_level == -1` configuration. -/
theorem buildCandidates_structure (cfg : AttnNeckCfg) (laterals : List Shape)
    (i : Nat) (li : Shape) (hi : laterals[i]? = some li)
    (hch : ∀ t ∈ laterals, t.1 = cfg.out_channels) :
    ∃ cs, buildCandidates cfg laterals i = some cs ∧
      cs.length = laterals.length ∧
      cs[i]? = some li ∧
      (∀ j, j < i → cs[j]? =
        (laterals[j]?).bind (downChain cfg.out_channels (i - j))) ∧
      (∀ j, i < j → j < laterals.length → cs[j]? =
        (laterals[j]?).map (fun t => interpolateTo t (li.2.1, li.2.2))) ∧
      (laterals.length = cfg.windowSize →
        cs.length = cfg.backboneEndLevel - cfg.start_level ∧
        (cfg.end_level = -1 → cs.length = cfg.numIns - cfg.start_level)) := by
  have hilen : i < laterals.length := by
    obtain ⟨h, -⟩ := List.getElem?_eq_some_iff.1 hi
    exact h
  obtain ⟨downs, hdowns, hdlen, hdidx⟩ := seqMapM_spec
    (fun jt : Nat × Shape => downChain cfg.out_channels (i - jt.1) jt.2)
    (laterals.take i).enum
    (by
      intro a ha
      have hmem : a.2 ∈ laterals.take i := by
        have h2 : (laterals.take i)[a.1]? = some a.2 :=
          List.mem_enum_iff_getElem?.1 ha
        exact List.getElem?_mem h2
      have hoc : a.2.1 = cfg.out_channels :=
        hch a.2 (List.mem_of_mem_take hmem)
      obtain ⟨u, hu, -⟩ := downChain_some cfg.out_channels (i - a.1) a.2 hoc
      simp [hu])
  have hdlen' : downs.length = i := by
    rw [hdlen, List.enum_length, List.length_take]
    omega
  refine ⟨downs ++ [li] ++ ((laterals.drop (i + 1)).map
    (fun t => interpolateTo t (li.2.1, li.2.2))), ?_, ?_, ?_, ?_, ?_, ?_⟩
  · simp only [buildCandidates, hi, Option.some_bind, hdowns]
    rfl
  · simp only [List.length_append, List.length_map, List.length_drop,
      hdlen', List.length_singleton]
    omega
  · have hb1 : i < (downs ++ [li]).length := by
      simp only [List.length_append, List.length_singleton, hdlen']; omega
    rw [List.getElem?_append_left hb1,
      List.getElem?_append_right (by omega : downs.length ≤ i)]
    simp [hdlen']
  · intro j hj
    have hb2 : j < (downs ++ [li]).length := by
      simp only [List.length_append, List.length_singleton, hdlen']; omega
    rw [List.getElem?_append_left hb2,
      List.getElem?_append_left (by omega : j < downs.length), hdidx j]
    have henum : (laterals.take i).enum[j]? =
        ((laterals.take i)[j]?).map (fun a => (j, a)) := by
      simp [List.enum]
    rw [henum, List.getElem?_take_of_lt hj]
    cases laterals[j]? <;> simp
  · intro j hij hjlen
    have hb3 : (downs ++ [li]).length ≤ j := by
      simp only [List.length_append, List.length_singleton, hdlen']; omega
    rw [List.getElem?_append_right hb3]
    simp only [List.length_append, hdlen', List.length_singleton]
    rw [List.getElem?_map, List.getElem?_drop]
    have e : i + 1 + (j - (i + 1)) = j := by omega
    rw [e]
  · intro hw
    constructor
    · simp only [List.length_append, List.length_map, List.length_drop,
        hdlen', List.length_singleton]
      unfold AttnNeckCfg.windowSize at hw
      omega
    · intro he
      simp only [List.length_append, List.length_map, List.length_drop,
        hdlen', List.length_singleton]
      have : cfg.backboneEndLevel = cfg.numIns := by
        unfold AttnNeckCfg.backboneEndLevel
        rw [if_pos he]
      unfold AttnNeckCfg.windowSize at hw
      rw [this] at hw
      omega

/-- Witness for `buildCandidates_structure`: two levels, target level 1. -/
theorem buildCandidates_structure_witness :
    ∃ cs, buildCandidates
        { in_channels := [2, 3], out_channels := 5, num_outs := 2 }
        [(5, 8, 8), (5, 4, 4)] 1 = some cs ∧
      cs.length = ([(5, 8, 8), (5, 4, 4)] : List Shape).length ∧
      cs[1]? = some (5, 4, 4) ∧
      (∀ j, j < 1 → cs[j]? =
        (([(5, 8, 8), (5, 4, 4)] : List Shape)[j]?).bind (downChain 5 (1 - j))) ∧
      (∀ j, 1 < j → j < ([(5, 8, 8), (5, 4, 4)] : List Shape).length → cs[j]? =
        (([(5, 8, 8), (5, 4, 4)] : List Shape)[j]?).map
          (fun t => interpolateTo t (4, 4))) ∧
      (([(5, 8, 8), (5, 4, 4)] : List Shape).length =
          AttnNeckCfg.windowSize
            { in_channels := [2, 3], out_channels := 5, num_outs := 2 } →
        cs.length =
          AttnNeckCfg.backboneEndLevel
            { in_channels := [2, 3], out_channels := 5, num_outs := 2 } -
          AttnNeckCfg.start_level
            { in_channels := [2, 3], out_channels := 5, num_outs := 2 } ∧
        (AttnNeckCfg.end_level
            { in_channels := [2, 3], out_channels := 5, num_outs := 2 } = -1 →
          cs.length =
            AttnNeckCfg.numIns
              { in_channels := [2, 3], out_channels := 5, num_outs := 2 } -
            AttnNeckCfg.start_level
              { in_channels := [2, 3], out_channels := 5, num_outs := 2 })) :=
  buildCandidates_structure
    { in_channels := [2, 3], out_channels := 5, num_outs := 2 }
    [(5, 8, 8), (5, 4, 4)] 1 (5, 4, 4) (by decide) (by decide)

/-- A configuration with an explicit `end_level` smaller than the number of
input levels (it passes the construction asserts). -/
def cfgExplicitEnd : AttnNeckCfg :=
  { in_channels := [4, 4, 4], out_channels := 5, num_outs := 2, end_level := 2 }

/-- **C2** (counterexample).  With three input levels and explicit
`end_level = 2` (accepted by construction), the candidate set built for
level 0 holds `backbone_end_level - start_level = 2` tensors, not
`num_ins - start_level = 3` as claimed; the Augmented gate, constructed to
accept `out_channels * (num_ins - start_level)` concatenated channels, then
rejects it. -/
theorem buildCandidates_count_cex :
    cfgExplicitEnd.geomChecks = true ∧
    cfgExplicitEnd.windowSize = 2 ∧
    cfgExplicitEnd.numIns - cfgExplicitEnd.start_level = 3 ∧
    buildCandidates cfgExplicitEnd [(5, 8, 8), (5, 4, 4)] 0 =
      some [(5, 8, 8), (5, 8, 8)] ∧
    ([(5, 8, 8), (5, 8, 8)] : List Shape).length ≠
      cfgExplicitEnd.numIns - cfgExplicitEnd.start_level ∧
    attnAugGate cfgExplicitEnd 1 0 0 [(5, 8, 8), (5, 8, 8)] = none := by
  decide

/-! ## C6 — output projection and output-conv sharing -/

/-- **C6** (amended).  On a lateral list of window size with
`out_channels`-channel, positive-extent maps: without output-conv sharing
the per-level `fpn_convs` 3×3 projections produce the outputs; with sharing
the repetition-0 refinement bank is used instead — it holds one conv per
window level exactly when `repeated_layer ≥ 2`, and the output step then
succeeds with the same shapes.  (With sharing and `repeated_layer ≤ 1` the
bank is empty and the step fails — see `outputConvs_sharing_cex`.) -/
theorem outputConvs_sharing_spec (cfg : AttnNeckCfg) (laterals : List Shape)
    (hch : ∀ t ∈ laterals, t.1 = cfg.out_channels ∧ 1 ≤ t.2.1 ∧ 1 ≤ t.2.2)
    (hlen : laterals.length = cfg.windowSize) :
    (cfg.out_sharing = true → 2 ≤ cfg.repeated_layer →
      cfg.repeatedBankSize 0 = cfg.windowSize ∧
      outputConvs cfg laterals = some laterals) ∧
    (cfg.out_sharing = false → outputConvs cfg laterals = some laterals) := by
  have hmem : ∀ j, j < laterals.length →
      laterals[j]? = some (laterals.getD j (0, 0, 0)) := by
    intro j hj
    rw [List.getD_eq_getElem _ _ hj]
    exact List.getElem?_eq_getElem hj
  have hprop : ∀ j, j < laterals.length →
      (laterals.getD j (0, 0, 0)).1 = cfg.out_channels ∧
      1 ≤ (laterals.getD j (0, 0, 0)).2.1 ∧
      1 ≤ (laterals.getD j (0, 0, 0)).2.2 := by
    intro j hj
    apply hch
    rw [List.getD_eq_getElem _ _ hj]
    exact List.getElem_mem _
  constructor
  · intro hshare hrep
    have hbank : cfg.repeatedBankSize 0 = cfg.windowSize := by
      unfold AttnNeckCfg.repeatedBankSize
      rw [if_pos hshare, if_pos hrep]
    refine ⟨hbank, ?_⟩
    unfold outputConvs
    rw [mapM_range_some _ (fun j => laterals.getD j (0, 0, 0)) _ ?_,
      map_range_getD]
    intro j hj
    obtain ⟨h1, h2, h3⟩ := hprop j hj
    have hjw : j < cfg.windowSize := hlen ▸ hj
    have hc := convApply_3x3_id cfg.out_channels (laterals.getD j (0, 0, 0))
      h1 h2 h3
    rw [hmem j hj]
    simp [hshare, hbank, hjw]
    simpa using hc
  · intro hshare
    unfold outputConvs
    rw [mapM_range_some _ (fun j => laterals.getD j (0, 0, 0)) _ ?_,
      map_range_getD]
    intro j hj
    obtain ⟨h1, h2, h3⟩ := hprop j hj
    have hc := convApply_3x3_id cfg.out_channels (laterals.getD j (0, 0, 0))
      h1 h2 h3
    rw [hmem j hj]
    simp [hshare]
    simpa using hc

/-- One window level, two repetitions, output-conv sharing on. -/
def cfgShareTwo : AttnNeckCfg :=
  { in_channels := [6], out_channels := 7, num_outs := 1,
    repeated_layer := 2, out_sharing := true }

/-- Witness for `outputConvs_sharing_spec` at `cfgShareTwo`. -/
theorem outputConvs_sharing_spec_witness :
    (cfgShareTwo.out_sharing = true → 2 ≤ cfgShareTwo.repeated_layer →
      cfgShareTwo.repeatedBankSize 0 = cfgShareTwo.windowSize ∧
      outputConvs cfgShareTwo [(7, 5, 5)] = some [(7, 5, 5)]) ∧
    (cfgShareTwo.out_sharing = false →
      outputConvs cfgShareTwo [(7, 5, 5)] = some [(7, 5, 5)]) :=
  outputConvs_sharing_spec cfgShareTwo [(7, 5, 5)] (by decide) (by decide)

/-- A configuration with output-conv sharing and a single repetition (it
passes the construction asserts). -/
def cfgShareOne : AttnNeckCfg :=
  { in_channels := [6], out_channels := 7, num_outs := 1, out_sharing := true }

/-- **C6** (counterexample).  With output-conv sharing active and
`repeated_layer = 1`, the construction loop appends no refinement conv
(`r != repeated_layer - 1` fails at `r = 0`), so the repetition-0 bank is
empty and the output step — and with it the whole forward — fails instead
of producing outputs: the sharing flag does change the outcome of the
forward algorithm. -/
theorem outputConvs_sharing_cex :
    cfgShareOne.geomChecks = true ∧
    cfgShareOne.out_sharing = true ∧
    cfgShareOne.repeated_layer = 1 ∧
    cfgShareOne.repeatedBankSize 0 = 0 ∧
    outputConvs cfgShareOne [(7, 5, 5)] = none ∧
    attnForward cfgShareOne specGate [(6, 5, 5)] = none := by
  decide

/-! ## C7 — parameter-free extra levels in the documented scenario -/

/-- The documented example configuration with `num_outs = 6` and no
extra-convs policy. -/
def scenarioCfg : AttnNeckCfg :=
  { in_channels := [2, 3, 5, 7], out_channels := 11, num_outs := 6 }

/-- **C7.** In the documented scenario (4 levels, spatial sizes
`[340, 170, 84, 43]`, `out_channels = 11`, `num_outs = 6`, no extra-convs
policy) the two additional outputs are produced by max-pooling the previous
last output with kernel 1 and stride 2 — no learned parameters — giving
spatial sizes `floor((43-1)/2)+1 = 22` and `floor((22-1)/2)+1 = 11`, each
with 11 channels.  (The gate stands for the external `AttentionGate`
collaborator, see `specGate`.) -/
theorem attnForward_extra_pool_scenario :
    attnForward scenarioCfg specGate
      [(2, 340, 340), (3, 170, 170), (5, 84, 84), (7, 43, 43)] =
      some [(11, 340, 340), (11, 170, 170), (11, 84, 84), (11, 43, 43),
        (11, 22, 22), (11, 11, 11)] ∧
    maxPool2dShape 1 2 (11, 43, 43) = (11, 22, 22) ∧
    maxPool2dShape 1 2 (11, 22, 22) = (11, 11, 11) ∧
    (43 - 1) / 2 + 1 = 22 ∧ (22 - 1) / 2 + 1 = 11 := by
  decide

/-! ## C1 — the forward shape law -/

lemma optBind_some {A B : Type} (a : A) (f : A → Option B) :
    (do let x ← some a; f x) = f a := rfl

lemma optPure_bind {A B : Type} (a : A) (f : A → Option B) :
    (do let x ← (pure a : Option A); f x) = f a := rfl

lemma if_true_eq {A : Type} (a b : A) : (if (true = true) then a else b) = a :=
  rfl

lemma if_false_eq {A : Type} (a b : A) : (if (false = true) then a else b) = b :=
  rfl

lemma topDownMerge_id (c : Nat) :
    ∀ L : List Shape, (∀ t ∈ L, t.1 = c) → topDownMerge L = some L := by
  intro L
  induction L with
  | nil => intro _; rfl
  | cons t rest ih =>
      intro h
      have hrest := ih (fun u hu => h u (by simp [hu]))
      cases rest with
      | nil => rfl
      | cons u rest' =>
          have ht : t.1 = c := h t (by simp)
          have hu : u.1 = c := h u (by simp)
          simp only [topDownMerge] at hrest ⊢
          rw [hrest]
          have hadd : addShapes t (interpolateTo u (t.2.1, t.2.2)) = some t := by
            unfold addShapes interpolateTo
            rw [if_pos]
            obtain ⟨t1, t2, t3⟩ := t
            obtain ⟨u1, u2, u3⟩ := u
            simp only at ht hu
            rw [ht, hu]
          simp [hadd]

lemma getD_mem_of_lt {A : Type} (l : List A) (j : Nat) (d : A)
    (hj : j < l.length) : l.getD j d ∈ l := by
  rw [List.getD_eq_getElem _ _ hj]
  exact List.getElem_mem _

lemma getElem?_eq_getD {A : Type} (l : List A) (j : Nat) (d : A)
    (hj : j < l.length) : l[j]? = some (l.getD j d) := by
  rw [List.getD_eq_getElem _ _ hj]
  exact List.getElem?_eq_getElem hj

lemma fusionStep_id (cfg : AttnNeckCfg)
    (gate : Nat → Nat → List Shape → Option Shape) (l : Nat) (L : List Shape)
    (hg : ∀ r i cands s, cands[i]? = some s → gate r i cands = some s)
    (hch : ∀ t ∈ L, t.1 = cfg.out_channels ∧ 1 ≤ t.2.1 ∧ 1 ≤ t.2.2)
    (hlen : L.length = cfg.windowSize)
    (hl : l < cfg.repeated_layer) :
    fusionStep cfg gate l L = some L := by
  have hmem : ∀ j, j < L.length → L[j]? = some (L.getD j (0, 0, 0)) :=
    fun j hj => getElem?_eq_getD L j (0, 0, 0) hj
  have hprop : ∀ j, j < L.length →
      (L.getD j (0, 0, 0)).1 = cfg.out_channels ∧
      1 ≤ (L.getD j (0, 0, 0)).2.1 ∧ 1 ≤ (L.getD j (0, 0, 0)).2.2 :=
    fun j hj => hch _ (getD_mem_of_lt L j (0, 0, 0) hj)
  have htemps : seqMapM (fun i => do
      let li ← L[i]?
      let samples ← buildCandidates cfg L i
      let fused ← gate (if cfg.attention_sharing then 0 else l) i samples
      if cfg.residual then addShapes fused li else pure fused)
      (List.range L.length) = some L := by
    rw [mapM_range_some _ (fun i => L.getD i (0, 0, 0)) _ ?_, map_range_getD]
    intro i hi
    obtain ⟨cs, hcs, -, hcsi, -, -, -⟩ := buildCandidates_structure cfg L i
      (L.getD i (0, 0, 0)) (hmem i hi) (fun t htm => (hch t htm).1)
    have hgate := hg (if cfg.attention_sharing then 0 else l) i cs
      (L.getD i (0, 0, 0)) hcsi
    rw [hmem i hi, optBind_some, hcs, optBind_some, hgate, optBind_some]
    by_cases hres : cfg.residual
    · simp only [hres, if_true, addShapes, if_pos rfl]
    · simp only [hres, Bool.false_eq_true, if_false]
      rfl
  unfold fusionStep
  rw [htemps, optBind_some]
  by_cases hlast : l = cfg.repeated_layer - 1
  · rw [if_neg (by simp [hlast])]
    rfl
  · rw [if_pos (by exact hlast)]
    have hbank : cfg.repeatedBankSize (if cfg.out_sharing then 0 else l) =
        cfg.windowSize := by
      unfold AttnNeckCfg.repeatedBankSize
      by_cases hs : cfg.out_sharing
      · simp only [hs, if_true]
        rw [if_pos (by omega)]
      · simp only [hs, Bool.false_eq_true, if_false]
        rw [if_pos (by omega)]
    rw [mapM_range_some _ (fun i => L.getD i (0, 0, 0)) _ ?_, map_range_getD]
    intro i hi
    rw [hmem i hi, optBind_some]
    obtain ⟨h1, h2, h3⟩ := hprop i hi
    have hc := convApply_3x3_id cfg.out_channels (L.getD i (0, 0, 0)) h1 h2 h3
    rw [hbank, if_pos (by omega)]
    exact hc

lemma outputConvs_id (cfg : AttnNeckCfg) (laterals : List Shape)
    (hch : ∀ t ∈ laterals, t.1 = cfg.out_channels ∧ 1 ≤ t.2.1 ∧ 1 ≤ t.2.2)
    (hlen : laterals.length = cfg.windowSize)
    (hok : cfg.out_sharing = false ∨ 2 ≤ cfg.repeated_layer) :
    outputConvs cfg laterals = some laterals := by
  unfold outputConvs
  rw [mapM_range_some _ (fun j => laterals.getD j (0, 0, 0)) _ ?_,
    map_range_getD]
  intro j hj
  obtain ⟨h1, h2, h3⟩ := hch _ (getD_mem_of_lt laterals j (0, 0, 0) hj)
  have hc := convApply_3x3_id cfg.out_channels (laterals.getD j (0, 0, 0))
    h1 h2 h3
  rw [getElem?_eq_getD laterals j (0, 0, 0) hj, optBind_some]
  by_cases hs : cfg.out_sharing
  · have hrep : 2 ≤ cfg.repeated_layer := by
      rcases hok with h | h
      · rw [hs] at h; cases h
      · exact h
    have hbank : cfg.repeatedBankSize 0 = cfg.windowSize := by
      unfold AttnNeckCfg.repeatedBankSize
      rw [if_pos hs, if_pos hrep]
    rw [if_pos hs, hbank, if_pos (by omega)]
    exact hc
  · rw [if_neg (by simp [hs])]
    exact hc

lemma appendPools_spec (oc : Nat) :
    ∀ (k : Nat) (outs : List Shape), outs ≠ [] → (∀ t ∈ outs, t.1 = oc) →
      ∃ ext, appendPools k outs = some (outs ++ ext) ∧ ext.length = k ∧
        ∀ t ∈ ext, t.1 = oc := by
  intro k
  induction k with
  | zero =>
      intro outs h1 h2
      exact ⟨[], by simp [appendPools], rfl, by simp⟩
  | succ m ih =>
      intro outs h1 h2
      obtain ⟨last, hlast⟩ :=
        Option.isSome_iff_exists.1 (List.getLast?_isSome.2 h1)
      obtain ⟨ys, hys⟩ := List.getLast?_eq_some_iff.1 hlast
      have hlastoc : last.1 = oc := h2 last (by rw [hys]; simp)
      obtain ⟨ext, hext, hextlen, hextch⟩ :=
        ih (outs ++ [maxPool2dShape 1 2 last]) (by simp)
          (by
            intro t htm
            rcases List.mem_append.1 htm with h | h
            · exact h2 t h
            · simp at h
              rw [h]
              simpa [maxPool2dShape] using hlastoc)
      refine ⟨maxPool2dShape 1 2 last :: ext, ?_, by simp [hextlen], ?_⟩
      · simp only [appendPools, hlast, optBind_some]
        rw [hext]
        simp
      · intro t htm
        rcases List.mem_cons.1 htm with h | h
        · rw [h]; simpa [maxPool2dShape] using hlastoc
        · exact hextch t h

lemma moreExtraConvs_spec (oc : Nat) :
    ∀ (k : Nat) (outs : List Shape), outs ≠ [] → (∀ t ∈ outs, t.1 = oc) →
      ∃ ext, moreExtraConvs oc k outs = some (outs ++ ext) ∧ ext.length = k ∧
        ∀ t ∈ ext, t.1 = oc := by
  intro k
  induction k with
  | zero =>
      intro outs h1 h2
      exact ⟨[], by simp [moreExtraConvs], rfl, by simp⟩
  | succ m ih =>
      intro outs h1 h2
      obtain ⟨last, hlast⟩ :=
        Option.isSome_iff_exists.1 (List.getLast?_isSome.2 h1)
      obtain ⟨ys, hys⟩ := List.getLast?_eq_some_iff.1 hlast
      have hlastoc : last.1 = oc := h2 last (by rw [hys]; simp)
      have hc : convApply oc oc 3 2 1 last =
          some (oc, convDim last.2.1 3 2 1, convDim last.2.2 3 2 1) := by
        unfold convApply
        rw [if_pos hlastoc]
      obtain ⟨ext, hext, hextlen, hextch⟩ :=
        ih (outs ++ [(oc, convDim last.2.1 3 2 1, convDim last.2.2 3 2 1)])
          (by simp)
          (by
            intro t htm
            rcases List.mem_append.1 htm with h | h
            · exact h2 t h
            · simp at h
              rw [h])
      refine ⟨(oc, convDim last.2.1 3 2 1, convDim last.2.2 3 2 1) :: ext,
        ?_, by simp [hextlen], ?_⟩
      · simp only [moreExtraConvs, hlast, optBind_some, hc]
        rw [hext]
        simp
      · intro t htm
        rcases List.mem_cons.1 htm with h | h
        · rw [h]
        · exact hextch t h

lemma extendOuts_spec (cfg : AttnNeckCfg) (inputs laterals outs : List Shape)
    (houts : outs ≠ []) (hch : ∀ t ∈ outs, t.1 = cfg.out_channels)
    (hlat : laterals ≠ []) (hlatch : ∀ t ∈ laterals, t.1 = cfg.out_channels)
    (hin : inputs.length = cfg.in_channels.length)
    (hinch : ∀ j, j < inputs.length →
      (inputs.getD j (0, 0, 0)).1 = cfg.in_channels.getD j 0)
    (hBE1 : 1 ≤ cfg.backboneEndLevel)
    (hBEle : cfg.backboneEndLevel ≤ cfg.numIns) :
    ∃ ext, extendOuts cfg inputs laterals outs = some (outs ++ ext) ∧
      ext.length = cfg.num_outs - outs.length ∧
      ∀ t ∈ ext, t.1 = cfg.out_channels := by
  have tail : ∀ src : Shape, src.1 = cfg.out_channels →
      ∃ ext, moreExtraConvs cfg.out_channels (cfg.num_outs - outs.length - 1)
          (outs ++ [src]) = some (outs ++ ext) ∧
        ext.length = cfg.num_outs - outs.length - 1 + 1 ∧
        ∀ t ∈ ext, t.1 = cfg.out_channels := by
    intro src hsrc
    obtain ⟨ext2, he, hl, hc⟩ := moreExtraConvs_spec cfg.out_channels
      (cfg.num_outs - outs.length - 1) (outs ++ [src]) (by simp)
      (by
        intro t htm
        rcases List.mem_append.1 htm with h | h
        · exact hch t h
        · simp at h
          rw [h]
          exact hsrc)
    refine ⟨src :: ext2, ?_, by simp [hl], ?_⟩
    · rw [he]
      simp
    · intro t htm
      rcases List.mem_cons.1 htm with h | h
      · rw [h]
        exact hsrc
      · exact hc t h
  unfold extendOuts
  by_cases hle : cfg.num_outs ≤ outs.length
  · rw [if_pos hle]
    exact ⟨[], by simp, by simp only [List.length_nil]; omega, by simp⟩
  · rw [if_neg hle]
    cases hpol : cfg.add_extra_convs with
    | off =>
        obtain ⟨ext, he, hl, hc⟩ := appendPools_spec cfg.out_channels
          (cfg.num_outs - outs.length) outs houts hch
        exact ⟨ext, he, hl, hc⟩
    | onInput =>
        have hidx : cfg.backboneEndLevel - 1 < inputs.length := by
          have hni : cfg.numIns = cfg.in_channels.length := rfl
          omega
        have hcl : cfg.backboneEndLevel - 1 < cfg.in_channels.length := by
          rw [← hin]
          exact hidx
        have hc1 : convApply (cfg.in_channels.getD (cfg.backboneEndLevel - 1) 0)
            cfg.out_channels 3 2 1
            (inputs.getD (cfg.backboneEndLevel - 1) (0, 0, 0)) =
            some (cfg.out_channels,
              convDim (inputs.getD (cfg.backboneEndLevel - 1) (0, 0, 0)).2.1 3 2 1,
              convDim (inputs.getD (cfg.backboneEndLevel - 1) (0, 0, 0)).2.2 3 2 1) := by
          unfold convApply
          rw [if_pos (hinch _ hidx)]
        obtain ⟨ext, he, hl, hc⟩ := tail (cfg.out_channels,
          convDim (inputs.getD (cfg.backboneEndLevel - 1) (0, 0, 0)).2.1 3 2 1,
          convDim (inputs.getD (cfg.backboneEndLevel - 1) (0, 0, 0)).2.2 3 2 1)
          rfl
        refine ⟨ext, ?_, by omega, hc⟩
        simp only [getElem?_eq_getD inputs (cfg.backboneEndLevel - 1) (0, 0, 0)
            hidx,
          getElem?_eq_getD cfg.in_channels (cfg.backboneEndLevel - 1) 0 hcl,
          optBind_some, hc1]
        exact he
    | onLateral =>
        obtain ⟨lastL, hlastL⟩ :=
          Option.isSome_iff_exists.1 (List.getLast?_isSome.2 hlat)
        obtain ⟨ys, hys⟩ := List.getLast?_eq_some_iff.1 hlastL
        have hlc : lastL.1 = cfg.out_channels := hlatch lastL (by rw [hys]; simp)
        have hc1 : convApply cfg.out_channels cfg.out_channels 3 2 1 lastL =
            some (cfg.out_channels, convDim lastL.2.1 3 2 1,
              convDim lastL.2.2 3 2 1) := by
          unfold convApply
          rw [if_pos hlc]
        obtain ⟨ext, he, hl, hc⟩ := tail (cfg.out_channels,
          convDim lastL.2.1 3 2 1, convDim lastL.2.2 3 2 1) rfl
        refine ⟨ext, ?_, by omega, hc⟩
        simp only [hlastL, optBind_some, hc1]
        exact he
    | onOutput =>
        obtain ⟨lastO, hlastO⟩ :=
          Option.isSome_iff_exists.1 (List.getLast?_isSome.2 houts)
        obtain ⟨ys, hys⟩ := List.getLast?_eq_some_iff.1 hlastO
        have hlc : lastO.1 = cfg.out_channels := hch lastO (by rw [hys]; simp)
        have hc1 : convApply cfg.out_channels cfg.out_channels 3 2 1 lastO =
            some (cfg.out_channels, convDim lastO.2.1 3 2 1,
              convDim lastO.2.2 3 2 1) := by
          unfold convApply
          rw [if_pos hlc]
        obtain ⟨ext, he, hl, hc⟩ := tail (cfg.out_channels,
          convDim lastO.2.1 3 2 1, convDim lastO.2.2 3 2 1) rfl
        refine ⟨ext, ?_, by omega, hc⟩
        simp only [hlastO, optBind_some, hc1]
        exact he

/-- **C1** (amended).  For a constructed orchestrator (geometry checks pass)
with a nonempty level window, banks that are not degenerate (output-conv
sharing off, or at least two repetitions — see
`attnForward_shape_law_cex` for the excluded combination), and any gate
satisfying the `AttentionGate` boundary contract (its fused map has the
target level's shape), forward on inputs matching the configured
`in_channels` returns exactly `num_outs` maps, each with `out_channels`
channels, and the first `windowSize` outputs keep their input level's
spatial height and width. -/
theorem attnForward_shape_law (cfg : AttnNeckCfg)
    (gate : Nat → Nat → List Shape → Option Shape) (inputs : List Shape)
    (hg : ∀ r i cands s, cands[i]? = some s → gate r i cands = some s)
    (hgeom : cfg.geomChecks = true)
    (hwin : 1 ≤ cfg.windowSize)
    (hdeg : cfg.out_sharing = false ∨ 2 ≤ cfg.repeated_layer)
    (hlen : inputs.length = cfg.in_channels.length)
    (hch : ∀ j, j < inputs.length →
      (inputs.getD j (0, 0, 0)).1 = cfg.in_channels.getD j 0)
    (hpos : ∀ t ∈ inputs, 1 ≤ t.2.1 ∧ 1 ≤ t.2.2) :
    ∃ outs, attnForward cfg gate inputs = some outs ∧
      outs.length = cfg.num_outs ∧
      (∀ t ∈ outs, t.1 = cfg.out_channels) ∧
      ∀ i, i < cfg.windowSize →
        ∃ t s, outs[i]? = some t ∧ inputs[i + cfg.start_level]? = some s ∧
          t.1 = cfg.out_channels ∧ t.2.1 = s.2.1 ∧ t.2.2 = s.2.2 := by
  have hni : cfg.numIns = cfg.in_channels.length := rfl
  have hBEle : cfg.backboneEndLevel ≤ cfg.numIns := by
    unfold AttnNeckCfg.geomChecks at hgeom
    unfold AttnNeckCfg.backboneEndLevel
    by_cases he : cfg.end_level = -1
    · rw [if_pos he]
    · rw [if_neg he]
      rw [if_neg he] at hgeom
      simp only [Bool.and_eq_true, decide_eq_true_eq] at hgeom
      omega
  have hwno : cfg.windowSize ≤ cfg.num_outs := by
    unfold AttnNeckCfg.geomChecks at hgeom
    unfold AttnNeckCfg.windowSize AttnNeckCfg.backboneEndLevel
    by_cases he : cfg.end_level = -1
    · rw [if_pos he]
      rw [if_pos he] at hgeom
      simp only [decide_eq_true_eq] at hgeom
      omega
    · rw [if_neg he]
      rw [if_neg he] at hgeom
      simp only [Bool.and_eq_true, decide_eq_true_eq] at hgeom
      omega
  have hBE1 : 1 ≤ cfg.backboneEndLevel := by
    unfold AttnNeckCfg.windowSize at hwin
    omega
  have hidxlt : ∀ i, i < cfg.windowSize → i + cfg.start_level < inputs.length := by
    intro i hi
    unfold AttnNeckCfg.windowSize at hi
    omega
  set L0 : List Shape := (List.range cfg.windowSize).map (fun i =>
    (cfg.out_channels, (inputs.getD (i + cfg.start_level) (0, 0, 0)).2.1,
      (inputs.getD (i + cfg.start_level) (0, 0, 0)).2.2)) with hL0
  have hL0len : L0.length = cfg.windowSize := by simp [hL0]
  have hL0prop : ∀ t ∈ L0, t.1 = cfg.out_channels ∧ 1 ≤ t.2.1 ∧ 1 ≤ t.2.2 := by
    intro t htm
    rw [hL0] at htm
    rcases List.mem_map.1 htm with ⟨i, hi, rfl⟩
    have hi2 : i < cfg.windowSize := List.mem_range.1 hi
    have hp := hpos _ (getD_mem_of_lt inputs (i + cfg.start_level) (0, 0, 0)
      (hidxlt i hi2))
    exact ⟨rfl, hp.1, hp.2⟩
  have hL0idx : ∀ i, i < cfg.windowSize → L0[i]? = some (cfg.out_channels,
      (inputs.getD (i + cfg.start_level) (0, 0, 0)).2.1,
      (inputs.getD (i + cfg.start_level) (0, 0, 0)).2.2) := by
    intro i hi
    rw [hL0, List.getElem?_map, List.getElem?_range hi]
    rfl
  have hL0ne : L0 ≠ [] := List.ne_nil_of_length_pos (by omega)
  have hlats : seqMapM (fun i => do
      let t ← inputs[i + cfg.start_level]?
      let cin ← cfg.in_channels[i + cfg.start_level]?
      convApply cin cfg.out_channels 1 1 0 t)
      (List.range cfg.windowSize) = some L0 := by
    rw [hL0]
    apply mapM_range_some
    intro i hi
    have hlt := hidxlt i hi
    have hcl : i + cfg.start_level < cfg.in_channels.length := by omega
    rw [getElem?_eq_getD inputs _ (0, 0, 0) hlt, optBind_some,
      getElem?_eq_getD cfg.in_channels _ 0 hcl, optBind_some]
    have hp := hpos _ (getD_mem_of_lt inputs _ (0, 0, 0) hlt)
    exact convApply_1x1 _ cfg.out_channels _ (hch _ hlt) hp.1 hp.2
  have hguard : (guard (inputs.length = cfg.in_channels.length) :
      Option Unit) = some () := by
    simp [hlen]
  have htd := topDownMerge_id cfg.out_channels L0 (fun t ht => (hL0prop t ht).1)
  have hfold : seqFoldM (fun lats l => fusionStep cfg gate l lats) L0
      (List.range cfg.repeated_layer) = some L0 := by
    apply seqFoldM_fix
    intro l hl
    exact fusionStep_id cfg gate l L0 hg hL0prop hL0len (List.mem_range.1 hl)
  have houtc := outputConvs_id cfg L0 hL0prop hL0len hdeg
  obtain ⟨ext, hext, hextlen, hextch⟩ := extendOuts_spec cfg inputs L0 L0
    hL0ne (fun t ht => (hL0prop t ht).1) hL0ne (fun t ht => (hL0prop t ht).1)
    hlen hch hBE1 hBEle
  refine ⟨L0 ++ ext, ?_, ?_, ?_, ?_⟩
  · unfold attnForward
    cases hb : cfg.add_fpn_before <;> cases ha : cfg.add_fpn_after
    · simp only [hb, ha, if_false_eq]
      rw [hguard, optBind_some, hlats, optBind_some, optPure_bind, hfold,
        optBind_some, optPure_bind, houtc, optBind_some]
      exact hext
    · simp only [hb, ha, if_false_eq, if_true_eq]
      rw [hguard, optBind_some, hlats, optBind_some, optPure_bind, hfold,
        optBind_some, htd, optBind_some, houtc, optBind_some]
      exact hext
    · simp only [hb, ha, if_false_eq, if_true_eq]
      rw [hguard, optBind_some, hlats, optBind_some, htd, optBind_some, hfold,
        optBind_some, optPure_bind, houtc, optBind_some]
      exact hext
    · simp only [hb, ha, if_true_eq]
      rw [hguard, optBind_some, hlats, optBind_some, htd, optBind_some, hfold,
        optBind_some, htd, optBind_some, houtc, optBind_some]
      exact hext
  · rw [List.length_append, hL0len, hextlen, hL0len]
    omega
  · intro t htm
    rcases List.mem_append.1 htm with h | h
    · exact (hL0prop t h).1
    · exact hextch t h
  · intro i hi
    refine ⟨(cfg.out_channels,
      (inputs.getD (i + cfg.start_level) (0, 0, 0)).2.1,
      (inputs.getD (i + cfg.start_level) (0, 0, 0)).2.2),
      inputs.getD (i + cfg.start_level) (0, 0, 0), ?_, ?_, rfl, rfl, rfl⟩
    · rw [List.getElem?_append_left (by rw [hL0len]; exact hi), hL0idx i hi]
    · exact getElem?_eq_getD inputs _ (0, 0, 0) (hidxlt i hi)

/-- The docstring example configuration (4 levels, `out_channels = 11`,
`num_outs = 4`). -/
def exampleCfg : AttnNeckCfg :=
  { in_channels := [2, 3, 5, 7], out_channels := 11, num_outs := 4 }

/-- Witness for `attnForward_shape_law` on the docstring example. -/
theorem attnForward_shape_law_witness :
    ∃ outs, attnForward exampleCfg specGate
        [(2, 340, 340), (3, 170, 170), (5, 84, 84), (7, 43, 43)] = some outs ∧
      outs.length = exampleCfg.num_outs ∧
      (∀ t ∈ outs, t.1 = exampleCfg.out_channels) ∧
      ∀ i, i < exampleCfg.windowSize →
        ∃ t s, outs[i]? = some t ∧
          ([(2, 340, 340), (3, 170, 170), (5, 84, 84), (7, 43, 43)] :
            List Shape)[i + exampleCfg.start_level]? = some s ∧
          t.1 = exampleCfg.out_channels ∧ t.2.1 = s.2.1 ∧ t.2.2 = s.2.2 :=
  attnForward_shape_law exampleCfg specGate
    [(2, 340, 340), (3, 170, 170), (5, 84, 84), (7, 43, 43)]
    (fun _ _ _ _ h => h) (by decide) (by decide) (Or.inl rfl) (by decide)
    (by decide) (by decide)

/-- A configuration with output-conv sharing and the default single
repetition (it passes the construction asserts). -/
def cfgShapeCex : AttnNeckCfg :=
  { in_channels := [3, 4], out_channels := 5, num_outs := 2,
    out_sharing := true }

/-- **C1** (counterexample).  A constructed orchestrator (geometry checks
pass) whose forward raises — the output step indexes the empty shared
refinement bank — instead of returning a `num_outs`-tuple. -/
theorem attnForward_shape_law_cex :
    cfgShapeCex.geomChecks = true ∧
    attnForward cfgShapeCex specGate [(3, 8, 8), (4, 4, 4)] = none := by
  decide
